import Mathlib

/-!
Shallow embedding of the frequency/probability core of the wordle_analysis
repository (src/main.py, with the duplicated copies in
src/streamlit/comparison_wordle_analysis.py and
src/streamlit/interactive_wordle_analysis.py).

Modelling conventions:
* a Python string is a `List Char`;
* a Python dict (and `collections.Counter`) is an ordered association list,
  matching CPython's insertion-order semantics; `d.get(k, 0)` is an ordered
  first-match lookup;
* fallible operations (`word[i]` indexing, `v / 0` division) return `Option`,
  `none` standing for the raised `IndexError` / `ZeroDivisionError`;
* Python's exact `int / int` semantics is modelled in `ℚ` (the float rounding
  is not modelled; every claim checked here is about exact values).
-/

namespace WordleAnalysis

/-- Python `word[i]` for a nonnegative index `i`: the character at `i`, or
`none` when `i` is out of range (Python raises `IndexError`). -/
def pyIndex : List Char → Nat → Option Char
  | [], _ => none
  | c :: _, 0 => some c
  | _ :: cs, n + 1 => pyIndex cs n

/-- One step of `collections.Counter` construction: increment the count of `c`
in the ordered association list `d` (first matching entry), appending a new
entry `(c, 1)` at the end when `c` is absent — CPython dict insertion order. -/
def counterAdd : List (Char × Nat) → Char → List (Char × Nat)
  | [], c => [(c, 1)]
  | (k, v) :: rest, c =>
    if k = c then (k, v + 1) :: rest else (k, v) :: counterAdd rest c

/-- `collections.Counter(iterable)`: tally the characters in order. -/
def pyCounter (l : List Char) : List (Char × Nat) := l.foldl counterAdd []

/-- `sum(d.values())` for an association-list dict. -/
def sumValues {β : Type} [Add β] [Zero β] (d : List (Char × β)) : β :=
  (d.map Prod.snd).sum

/-- `calculate_letter_frequency(word_list)` (src/main.py lines 88-91):
`Counter("".join(word_list))`. -/
def calculate_letter_frequency (word_list : List (List Char)) :
    List (Char × Nat) :=
  pyCounter word_list.flatten

/-- The characters of `word_list` at index `position`, i.e. the Python list
comprehension `[word[position] for word in word_list]`; `none` when some word
is too short (Python raises `IndexError`). -/
def lettersAt : List (List Char) → Nat → Option (List Char)
  | [], _ => some []
  | w :: ws, p =>
    match pyIndex w p, lettersAt ws p with
    | some c, some cs => some (c :: cs)
    | _, _ => none

/-- The `for position in range(word_length)` loop body of
`calculate_positional_frequency`, building the entries
`(position + 1, Counter(letters_at_position))` in order. -/
def posLoop (word_list : List (List Char)) :
    List Nat → Option (List (Nat × List (Char × Nat)))
  | [] => some []
  | p :: ps =>
    match lettersAt word_list p, posLoop word_list ps with
    | some ls, some rest => some ((p + 1, pyCounter ls) :: rest)
    | _, _ => none

/-- `calculate_positional_frequency(word_list)` (src/main.py lines 94-101):
takes `word_length = len(word_list[0])` (an `IndexError`, hence `none`, on the
empty corpus) and tallies the letters at each position `0 ≤ p < word_length`,
keyed by `p + 1`. -/
def calculate_positional_frequency (word_list : List (List Char)) :
    Option (List (Nat × List (Char × Nat))) :=
  match word_list with
  | [] => none
  | w :: _ => posLoop word_list (List.range w.length)

/-- Python division `v / t`: `ZeroDivisionError` (`none`) when `t = 0`,
otherwise the exact quotient. -/
def pyDiv (v t : ℚ) : Option ℚ := if t = 0 then none else some (v / t)

/-- `calculate_probabilities(freq_dict, total_count)` (src/main.py lines
121-123): the dict comprehension `{k: v / total_count for k, v in
freq_dict.items()}`, dividing entry by entry; an empty dict performs no
division at all. -/
def calculate_probabilities : List (Char × Nat) → ℚ → Option (List (Char × ℚ))
  | [], _ => some []
  | (k, v) :: rest, total =>
    match pyDiv (v : ℚ) total, calculate_probabilities rest total with
    | some p, some ps => some ((k, p) :: ps)
    | _, _ => none

/-- The whitespace characters stripped by Python's `str.strip()` (ASCII). -/
def isPySpace (c : Char) : Bool :=
  c == ' ' || c == '\t' || c == '\n' || c == '\r' || c == '\x0b' || c == '\x0c'

/-- Python `s.strip()`: drop leading and trailing whitespace. -/
def pyStrip (l : List Char) : List Char :=
  ((l.dropWhile isPySpace).reverse.dropWhile isPySpace).reverse

/-- Python `s.split(delim)` for a one-character delimiter: cut at every
occurrence; splitting the empty string yields `[""]`, and the result always
has one more element than there are delimiters. -/
def pySplitAux (delim : Char) : List Char → List Char → List (List Char)
  | [], acc => [acc.reverse]
  | c :: rest, acc =>
    if c = delim then acc.reverse :: pySplitAux delim rest []
    else pySplitAux delim rest (c :: acc)

/-- `split_words_to_list(word_string, delimiter)` (src/main.py lines 83-85):
`[word.strip().lower() for word in word_string.split(delimiter)]`. -/
def split_words_to_list (word_string : List Char) (delimiter : Char) :
    List (List Char) :=
  (pySplitAux delimiter word_string []).map
    (fun word => (pyStrip word).map Char.toLower)

/-- Stable insertion of `x` into a list sorted by descending count: `x` goes
before the first entry whose count it matches or exceeds. -/
def insertDesc (x : Char × Nat) : List (Char × Nat) → List (Char × Nat)
  | [] => [x]
  | y :: ys => if y.2 ≤ x.2 then x :: y :: ys else y :: insertDesc x ys

/-- Python `sorted(items, key=lambda x: x[1], reverse=True)`: a stable sort by
descending count (ties keep their input order). -/
def sortDesc : List (Char × Nat) → List (Char × Nat)
  | [] => []
  | x :: xs => insertDesc x (sortDesc xs)

/-- `get_top_letters(freq_dict, top_n)` (src/main.py lines 104-108): the first
`top_n` items after the stable descending sort by count. -/
def get_top_letters (freq : List (Char × Nat)) (top_n : Nat) :
    List (Char × Nat) :=
  (sortDesc freq).take top_n

/-- numpy/pandas rounding of a rational to the nearest integer, ties to even. -/
def roundHalfEven (x : ℚ) : ℤ :=
  if Int.fract x < 1 / 2 then ⌊x⌋
  else if 1 / 2 < Int.fract x then ⌊x⌋ + 1
  else if Even ⌊x⌋ then ⌊x⌋ else ⌊x⌋ + 1

/-- pandas `.round(2)`. -/
def round2 (x : ℚ) : ℚ := (roundHalfEven (x * 100) : ℚ) / 100

/-- The top-letters table as `main` builds it (src/main.py lines 413-425):
the `get_top_letters` rows with a `Percentage` column
`(frequency / total * 100).round(2)`, where `total` is the sum of the counts
of the FULL frequency dict, not of the top-n subset. -/
def top_letters_with_percentage (freq : List (Char × Nat)) (top_n : Nat) :
    List (Char × Nat × ℚ) :=
  (get_top_letters freq top_n).map
    (fun e => (e.1, e.2, round2 ((e.2 : ℚ) / ((sumValues freq : ℕ) : ℚ) * 100)))

/-- `d.get(k, 0)` on a probability dict. -/
def dget (d : List (Char × ℚ)) (k : Char) : ℚ :=
  ((d.find? (fun e => e.1 == k)).map Prod.snd).getD 0

/-- `d.get(k)` on a counter dict (`none` models a `KeyError` / absence). -/
def cget (d : List (Char × Nat)) (k : Char) : Option Nat :=
  (d.find? (fun e => e.1 == k)).map Prod.snd

/-- `set(d.keys())`. -/
def dkeys {β : Type} (d : List (Char × β)) : Finset Char :=
  (d.map Prod.fst).toFinset

/-- Lookup of a position key in a positional-frequency dict. -/
def posGet (pf : List (Nat × List (Char × Nat))) (p : Nat) :
    Option (List (Char × Nat)) :=
  (pf.find? (fun e => e.1 == p)).map Prod.snd

/-- `total_variation_distance(prob_dist1, prob_dist2)` (src/main.py lines
300-312): half the sum, over the union of the key sets, of the absolute
differences of the probabilities, missing keys read as 0. -/
def total_variation_distance (p q : List (Char × ℚ)) : ℚ :=
  (∑ k in dkeys p ∪ dkeys q, |dget p k - dget q k|) / 2

/-- The inline `tvd` of src/streamlit/comparison_wordle_analysis.py (lines
98, 117): the same half-sum of absolute probability differences, but indexed
by `letters`, the union of the two FREQUENCY dicts' key sets. -/
def comparison_tvd (freq1 freq2 : List (Char × Nat))
    (probs1 probs2 : List (Char × ℚ)) : ℚ :=
  (∑ k in dkeys freq1 ∪ dkeys freq2, |dget probs1 k - dget probs2 k|) / 2

/-- The inline `deviation` of src/streamlit/interactive_wordle_analysis.py
(lines 104-110): half-sum of absolute probability differences over the union
of the two probability dicts' key sets. -/
def interactive_deviation (prob1 prob2 : List (Char × ℚ)) : ℚ :=
  (∑ k in dkeys prob1 ∪ dkeys prob2, |dget prob1 k - dget prob2 k|) / 2

/-! ## Helper lemmas -/

theorem sumValues_counterAdd (d : List (Char × Nat)) (c : Char) :
    sumValues (counterAdd d c) = sumValues d + 1 := by
  induction d with
  | nil => rfl
  | cons e rest ih =>
    obtain ⟨k, v⟩ := e
    by_cases h : k = c
    · simp [counterAdd, h, sumValues]
      omega
    · simp [counterAdd, h, sumValues] at ih ⊢
      omega

theorem sumValues_foldl_counterAdd (l : List Char) (d : List (Char × Nat)) :
    sumValues (l.foldl counterAdd d) = sumValues d + l.length := by
  induction l generalizing d with
  | nil => simp
  | cons c cs ih =>
    simp only [List.foldl_cons, ih (counterAdd d c), sumValues_counterAdd,
      List.length_cons]
    omega

theorem sumValues_pyCounter (l : List Char) :
    sumValues (pyCounter l) = l.length := by
  simpa [sumValues] using sumValues_foldl_counterAdd l []

theorem sum_map_length (ws : List (List Char)) (L : Nat)
    (h : ∀ w ∈ ws, w.length = L) :
    (ws.map List.length).sum = L * ws.length := by
  induction ws with
  | nil => simp
  | cons w rest ih =>
    have hw : w.length = L := h w (List.mem_cons_self w rest)
    have hr := ih (fun x hx => h x (List.mem_cons_of_mem _ hx))
    simp only [List.map_cons, List.sum_cons, hw, hr, List.length_cons]
    ring

/-! ## C1 -/

/-- C1: for every non-empty corpus of words all of length `L`, the counts in
`calculate_letter_frequency` sum to `L` times the number of words. -/
theorem letter_frequency_total (words : List (List Char)) (L : Nat)
    (hne : words ≠ []) (hlen : ∀ w ∈ words, w.length = L) :
    sumValues (calculate_letter_frequency words) = L * words.length := by
  rw [calculate_letter_frequency, sumValues_pyCounter, List.length_flatten,
    sum_map_length words L hlen]

/-- C1 witness: the two-word corpus `["ab", "cd"]` has letter counts summing
to `2 × 2`. -/
theorem letter_frequency_total_witness :
    sumValues (calculate_letter_frequency [['a', 'b'], ['c', 'd']]) = 2 * 2 :=
  letter_frequency_total [['a', 'b'], ['c', 'd']] 2 (by simp) (by decide)

/-! ## Positional-frequency lemmas -/

theorem pyIndex_eq_some_of_lt (w : List Char) (p : Nat) (h : p < w.length) :
    ∃ c, pyIndex w p = some c := by
  induction w generalizing p with
  | nil => simp at h
  | cons a as ih =>
    cases p with
    | zero => exact ⟨a, rfl⟩
    | succ n => exact ih n (Nat.lt_of_succ_lt_succ h)

theorem pyIndex_eq_none_of_ge (w : List Char) (p : Nat) (h : w.length ≤ p) :
    pyIndex w p = none := by
  induction w generalizing p with
  | nil => rfl
  | cons a as ih =>
    cases p with
    | zero => simp at h
    | succ n => exact ih n (Nat.le_of_succ_le_succ h)

theorem lettersAt_of_lt (wl : List (List Char)) (p : Nat)
    (h : ∀ w ∈ wl, p < w.length) :
    ∃ ls, lettersAt wl p = some ls ∧ ls.length = wl.length := by
  induction wl with
  | nil => exact ⟨[], rfl, rfl⟩
  | cons w ws ih =>
    obtain ⟨c, hc⟩ := pyIndex_eq_some_of_lt w p (h w (List.mem_cons_self w ws))
    obtain ⟨ls, hls, hlen⟩ := ih (fun x hx => h x (List.mem_cons_of_mem _ hx))
    exact ⟨c :: ls, by simp [lettersAt, hc, hls], by simp [hlen]⟩

theorem lettersAt_none_of_short (wl : List (List Char)) (p : Nat)
    (w' : List Char) (hmem : w' ∈ wl) (hsh : w'.length ≤ p) :
    lettersAt wl p = none := by
  induction wl with
  | nil => simp at hmem
  | cons w ws ih =>
    rcases List.mem_cons.mp hmem with h | h
    · subst h
      simp [lettersAt, pyIndex_eq_none_of_ge w' p hsh]
    · cases hw : pyIndex w p <;> simp [lettersAt, hw, ih h]

theorem posLoop_some (wl : List (List Char)) (ps : List Nat)
    (h : ∀ p ∈ ps, ∀ w ∈ wl, p < w.length) :
    ∃ pf, posLoop wl ps = some pf ∧
      pf.map Prod.fst = ps.map (· + 1) ∧
      ∀ e ∈ pf, sumValues e.2 = wl.length := by
  induction ps with
  | nil => exact ⟨[], rfl, rfl, by simp⟩
  | cons p ps ih =>
    obtain ⟨ls, hls, hlen⟩ := lettersAt_of_lt wl p (h p (List.mem_cons_self _ _))
    obtain ⟨pf, hpf, hmap, hsum⟩ := ih (fun x hx p hw => h x (List.mem_cons_of_mem _ hx) p hw)
    refine ⟨(p + 1, pyCounter ls) :: pf, ?_, ?_, ?_⟩
    · simp [posLoop, hls, hpf]
    · simp [hmap]
    · intro e he
      rcases List.mem_cons.mp he with rfl | he2
      · rw [sumValues_pyCounter, hlen]
      · exact hsum e he2

theorem posLoop_none (wl : List (List Char)) (ps : List Nat) (p : Nat)
    (hp : p ∈ ps) (hnone : lettersAt wl p = none) :
    posLoop wl ps = none := by
  induction ps with
  | nil => simp at hp
  | cons a as ih =>
    rcases List.mem_cons.mp hp with rfl | h
    · simp [posLoop, hnone]
    · cases hl : lettersAt wl a <;> simp [posLoop, hl, ih h]

/-! ## C2 -/

/-- C2: on a non-empty corpus of words all of length `L`,
`calculate_positional_frequency` succeeds, its keys are exactly `1..L` (in
order), and the counts at every position sum to the number of words. -/
theorem positional_frequency_complete (words : List (List Char)) (L : Nat)
    (hne : words ≠ []) (hlen : ∀ w ∈ words, w.length = L) :
    ∃ pf, calculate_positional_frequency words = some pf ∧
      pf.map Prod.fst = (List.range L).map (· + 1) ∧
      ∀ e ∈ pf, sumValues e.2 = words.length := by
  cases words with
  | nil => exact absurd rfl hne
  | cons w ws =>
    have hwL : w.length = L := hlen w (List.mem_cons_self _ _)
    have h : ∀ p ∈ List.range w.length, ∀ x ∈ w :: ws, p < x.length := by
      intro p hp x hx
      rw [hlen x hx, ← hwL]
      exact List.mem_range.mp hp
    obtain ⟨pf, h1, h2, h3⟩ := posLoop_some (w :: ws) (List.range w.length) h
    exact ⟨pf, by simpa [calculate_positional_frequency] using h1,
      by rw [h2, hwL], h3⟩

/-- C2 witness: the corpus `["ab", "cd"]` yields positions exactly `[1, 2]`
with per-position counts summing to 2. -/
theorem positional_frequency_complete_witness :
    ∃ pf, calculate_positional_frequency [['a', 'b'], ['c', 'd']] = some pf ∧
      pf.map Prod.fst = (List.range 2).map (· + 1) ∧
      ∀ e ∈ pf, sumValues e.2 = 2 :=
  positional_frequency_complete [['a', 'b'], ['c', 'd']] 2 (by simp) (by decide)

/-! ## C5 -/

/-- C5: `calculate_positional_frequency` fails on the empty corpus (no first
word to take the bound from), and fails with an indexing error whenever some
word is strictly shorter than the first word. -/
theorem positional_frequency_short_word_fails :
    calculate_positional_frequency [] = none ∧
    ∀ (first : List Char) (rest : List (List Char)) (w' : List Char),
      w' ∈ first :: rest → w'.length < first.length →
      calculate_positional_frequency (first :: rest) = none := by
  refine ⟨rfl, ?_⟩
  intro first rest w' hmem hlt
  have hnone : lettersAt (first :: rest) w'.length = none :=
    lettersAt_none_of_short _ _ w' hmem le_rfl
  have hp : w'.length ∈ List.range first.length := List.mem_range.mpr hlt
  simpa [calculate_positional_frequency] using
    posLoop_none (first :: rest) (List.range first.length) w'.length hp hnone

/-- C5 witness: the heterogeneous corpus `["ab", "c"]` makes
`calculate_positional_frequency` fail. -/
theorem positional_frequency_short_word_fails_witness :
    calculate_positional_frequency [['a', 'b'], ['c']] = none :=
  positional_frequency_short_word_fails.2 ['a', 'b'] [['c']] ['c']
    (by decide) (by decide)

/-! ## C10 -/

theorem pySplitAux_ne_nil (delim : Char) (l acc : List Char) :
    pySplitAux delim l acc ≠ [] := by
  induction l generalizing acc with
  | nil => simp [pySplitAux]
  | cons c rest ih =>
    by_cases h : c = delim
    · simp [pySplitAux, h]
    · simpa [pySplitAux, h] using ih (c :: acc)

/-- C10: `split_words_to_list` never returns the empty list (splitting the
empty string yields `[""]`), `calculate_positional_frequency` on a non-empty
corpus whose first word is empty returns the empty mapping without error, and
only the truly empty corpus makes it fail. -/
theorem split_nonempty_and_empty_first_word :
    (∀ s : List Char, split_words_to_list s '|' ≠ []) ∧
    split_words_to_list [] '|' = [[]] ∧
    (∀ rest : List (List Char),
      calculate_positional_frequency ([] :: rest) = some []) ∧
    calculate_positional_frequency [] = none := by
  refine ⟨?_, rfl, fun rest => rfl, rfl⟩
  intro s hs
  rw [split_words_to_list] at hs
  exact pySplitAux_ne_nil '|' s [] (List.map_eq_nil_iff.mp hs)

/-! ## C3 -/

theorem calculate_probabilities_of_ne_zero (f : List (Char × Nat)) (t : ℚ)
    (ht : t ≠ 0) :
    calculate_probabilities f t =
      some (f.map (fun e => (e.1, (e.2 : ℚ) / t))) := by
  induction f with
  | nil => rfl
  | cons e rest ih =>
    obtain ⟨k, v⟩ := e
    simp [calculate_probabilities, pyDiv, ht, ih]

/-- C3: for every letter-frequency mapping whose counts sum to a positive
total, `calculate_probabilities` at that total succeeds and its values sum to
exactly 1 (in exact rational arithmetic). -/
theorem probabilities_sum_to_one (f : List (Char × Nat))
    (h : 0 < sumValues f) :
    ∃ d, calculate_probabilities f ((sumValues f : Nat) : ℚ) = some d ∧
      sumValues d = 1 := by
  have ht : ((sumValues f : Nat) : ℚ) ≠ 0 := by
    exact_mod_cast Nat.pos_iff_ne_zero.mp h
  refine ⟨_, calculate_probabilities_of_ne_zero f _ ht, ?_⟩
  rw [sumValues, List.map_map]
  have hcomp : (Prod.snd ∘ fun e : Char × Nat => (e.1, (e.2 : ℚ) / ((sumValues f : Nat) : ℚ))) =
      fun e : Char × Nat => (e.2 : ℚ) * (((sumValues f : Nat) : ℚ))⁻¹ := by
    funext e
    simp [div_eq_mul_inv]
  rw [hcomp, List.sum_map_mul_right]
  have hsum : (f.map (fun e : Char × Nat => (e.2 : ℚ))).sum = ((sumValues f : Nat) : ℚ) := by
    rw [sumValues, Nat.cast_list_sum, List.map_map]
    rfl
  rw [hsum, mul_inv_cancel₀ ht]

/-- C3 witness: the counts `{a: 2, b: 2}` normalize to probabilities summing
to 1. -/
theorem probabilities_sum_to_one_witness :
    ∃ d, calculate_probabilities [('a', 2), ('b', 2)]
        ((sumValues [('a', 2), ('b', 2)] : Nat) : ℚ) = some d ∧
      sumValues d = 1 :=
  probabilities_sum_to_one [('a', 2), ('b', 2)] (by decide)

/-! ## C6 -/

/-- C6 counterexample: on the EMPTY letter-frequency mapping the dict
comprehension performs no division at all, so `calculate_probabilities({}, 0)`
returns the empty dict instead of failing. -/
theorem probabilities_zero_total_empty_ok :
    calculate_probabilities [] 0 = some [] ∧
      calculate_probabilities [] 0 ≠ none :=
  ⟨rfl, by simp [calculate_probabilities]⟩

/-- C6 (amended): for every NON-EMPTY letter-frequency mapping,
`calculate_probabilities` at total 0 fails with a division-by-zero. -/
theorem probabilities_zero_total_fails (f : List (Char × Nat)) (h : f ≠ []) :
    calculate_probabilities f 0 = none := by
  cases f with
  | nil => exact absurd rfl h
  | cons e rest =>
    obtain ⟨k, v⟩ := e
    simp [calculate_probabilities, pyDiv]

/-- C6 witness: the one-entry mapping `{a: 1}` at total 0 fails. -/
theorem probabilities_zero_total_fails_witness :
    calculate_probabilities [('a', 1)] 0 = none :=
  probabilities_zero_total_fails [('a', 1)] (by simp)

/-! ## C7 -/

/-- C7 counterexample: in the corpus `["apple", "angle", "ankle"]` the letter
`e` occurs once per word, so its count is 3, not the 2 the claim states. -/
theorem letter_frequency_example_e_count :
    cget (calculate_letter_frequency
        ["apple".toList, "angle".toList, "ankle".toList]) 'e' = some 3 ∧
      (some 3 : Option Nat) ≠ some 2 := by
  decide

/-- C7 (amended): the corpus `["apple", "angle", "ankle"]` has letter counts
`a:3, p:2, l:3, e:3, n:2, g:1, k:1` and positional counts `{a: 3}` at
position 1. -/
theorem letter_and_positional_frequency_example :
    calculate_letter_frequency
        ["apple".toList, "angle".toList, "ankle".toList] =
      [('a', 3), ('p', 2), ('l', 3), ('e', 3), ('n', 2), ('g', 1), ('k', 1)] ∧
    Option.map (fun pf => posGet pf 1)
        (calculate_positional_frequency
          ["apple".toList, "angle".toList, "ankle".toList]) =
      some (some [('a', 3)]) := by
  decide

/-! ## Dict-lookup lemmas for the TVD theorems -/

theorem dget_eq_zero_of_not_mem (d : List (Char × ℚ)) (k : Char)
    (h : k ∉ dkeys d) : dget d k = 0 := by
  have hfind : d.find? (fun e => e.1 == k) = none := by
    rw [List.find?_eq_none]
    intro e he hk
    refine h ?_
    rw [dkeys, List.mem_toFinset, List.mem_map]
    exact ⟨e, he, by simpa using hk⟩
  simp [dget, hfind]

theorem dget_nonneg_everywhere (d : List (Char × ℚ))
    (h : ∀ k ∈ dkeys d, 0 ≤ dget d k) : ∀ k, 0 ≤ dget d k := by
  intro k
  by_cases hk : k ∈ dkeys d
  · exact h k hk
  · rw [dget_eq_zero_of_not_mem d k hk]

theorem sum_dget_of_subset (d : List (Char × ℚ)) (S : Finset Char)
    (hS : dkeys d ⊆ S) :
    ∑ k in S, dget d k = ∑ k in dkeys d, dget d k :=
  (Finset.sum_subset hS (fun x _ hx => dget_eq_zero_of_not_mem d x hx)).symm

theorem abs_sub_le_add_of_nonneg {a b : ℚ} (ha : 0 ≤ a) (hb : 0 ≤ b) :
    |a - b| ≤ a + b := by
  rw [abs_le]
  constructor <;> linarith

theorem add_sub_abs_eq_zero_iff {a b : ℚ} (ha : 0 ≤ a) (hb : 0 ≤ b) :
    a + b - |a - b| = 0 ↔ a = 0 ∨ b = 0 := by
  rcases le_total a b with h | h
  · rw [abs_of_nonpos (by linarith)]
    constructor
    · intro h0
      left
      linarith
    · rintro (rfl | rfl) <;> ring_nf <;> linarith
  · rw [abs_of_nonneg (by linarith)]
    constructor
    · intro h0
      right
      linarith
    · rintro (rfl | rfl) <;> ring_nf <;> linarith

/-! ## C4 -/

/-- C4: for probability dicts (nonnegative values summing to 1 over their own
keys), `total_variation_distance` equals 1 exactly when no key has positive
probability in both dicts (disjoint supports), and equals 0 exactly when the
two dicts agree on every key of the union of their key sets (missing keys
read as 0). -/
theorem tvd_eq_one_iff_disjoint_and_eq_zero_iff_agree
    (p q : List (Char × ℚ))
    (hp0 : ∀ k ∈ dkeys p, 0 ≤ dget p k) (hq0 : ∀ k ∈ dkeys q, 0 ≤ dget q k)
    (hp1 : ∑ k in dkeys p, dget p k = 1)
    (hq1 : ∑ k in dkeys q, dget q k = 1) :
    (total_variation_distance p q = 1 ↔
      ∀ k, ¬(0 < dget p k ∧ 0 < dget q k)) ∧
    (total_variation_distance p q = 0 ↔
      ∀ k ∈ dkeys p ∪ dkeys q, dget p k = dget q k) := by
  have hp0' := dget_nonneg_everywhere p hp0
  have hq0' := dget_nonneg_everywhere q hq0
  have hSp : ∑ k in dkeys p ∪ dkeys q, dget p k = 1 := by
    rw [sum_dget_of_subset p _ Finset.subset_union_left, hp1]
  have hSq : ∑ k in dkeys p ∪ dkeys q, dget q k = 1 := by
    rw [sum_dget_of_subset q _ Finset.subset_union_right, hq1]
  constructor
  · have key : total_variation_distance p q = 1 ↔
        ∑ k in dkeys p ∪ dkeys q,
          (dget p k + dget q k - |dget p k - dget q k|) = 0 := by
      rw [total_variation_distance, Finset.sum_sub_distrib,
        Finset.sum_add_distrib, hSp, hSq]
      constructor
      · intro h
        have h2 : ∑ k in dkeys p ∪ dkeys q, |dget p k - dget q k| = 2 := by
          field_simp at h
          linarith
        linarith
      · intro h
        have h2 : ∑ k in dkeys p ∪ dkeys q, |dget p k - dget q k| = 2 := by
          linarith
        rw [h2]
        norm_num
    rw [key, Finset.sum_eq_zero_iff_of_nonneg (fun k _ => by
      have := abs_sub_le_add_of_nonneg (hp0' k) (hq0' k)
      linarith)]
    constructor
    · intro h k hk
      obtain ⟨hkp, hkq⟩ := hk
      by_cases hmem : k ∈ dkeys p ∪ dkeys q
      · rcases (add_sub_abs_eq_zero_iff (hp0' k) (hq0' k)).mp (h k hmem)
          with h0 | h0 <;> linarith
      · have hnp : k ∉ dkeys p := fun hm => hmem (Finset.mem_union_left _ hm)
        have := dget_eq_zero_of_not_mem p k hnp
        linarith
    · intro h k _
      rw [add_sub_abs_eq_zero_iff (hp0' k) (hq0' k)]
      by_contra hcon
      push_neg at hcon
      obtain ⟨h1, h2⟩ := hcon
      exact h k ⟨lt_of_le_of_ne (hp0' k) (Ne.symm h1),
        lt_of_le_of_ne (hq0' k) (Ne.symm h2)⟩
  · constructor
    · intro h k hk
      have hs : ∑ x in dkeys p ∪ dkeys q, |dget p x - dget q x| = 0 := by
        rcases div_eq_zero_iff.mp h with h' | h'
        · exact h'
        · norm_num at h'
      have hterm := (Finset.sum_eq_zero_iff_of_nonneg
        (fun x _ => abs_nonneg _)).mp hs k hk
      have := abs_eq_zero.mp hterm
      linarith
    · intro h
      have hs : ∑ x in dkeys p ∪ dkeys q, |dget p x - dget q x| = 0 :=
        Finset.sum_eq_zero (fun k hk => by rw [h k hk, sub_self, abs_zero])
      rw [total_variation_distance, hs]
      norm_num

/-- C4 witness: the distribution `{a: 1}` is at distance 0 from itself. -/
theorem tvd_eq_zero_self_witness :
    total_variation_distance [('a', 1)] [('a', 1)] = 0 := by
  refine (tvd_eq_one_iff_disjoint_and_eq_zero_iff_agree [('a', 1)] [('a', 1)]
    ?_ ?_ ?_ ?_).2.mpr (fun k _ => rfl) <;>
    simp [dkeys, dget]

/-! ## C8 -/

theorem top_letters_example_eval :
    top_letters_with_percentage [('a', 5), ('b', 3), ('c', 3), ('d', 1)] 2 =
      [('a', 5, 4167 / 100), ('b', 3, 25)] := by
  have hfl1 : (⌊(((5 : Nat) : ℚ) / ((12 : Nat) : ℚ) * 100 * 100)⌋ : ℤ) = 4166 := by
    push_cast
    norm_num [Int.floor_eq_iff]
  have hfl2 : (⌊(((3 : Nat) : ℚ) / ((12 : Nat) : ℚ) * 100 * 100)⌋ : ℤ) = 2500 := by
    push_cast
    norm_num [Int.floor_eq_iff]
  have h1 : round2 (((5 : Nat) : ℚ) / ((12 : Nat) : ℚ) * 100) = 4167 / 100 := by
    rw [round2, roundHalfEven, Int.fract, hfl1]
    norm_num
  have h2 : round2 (((3 : Nat) : ℚ) / ((12 : Nat) : ℚ) * 100) = 25 := by
    rw [round2, roundHalfEven, Int.fract, hfl2]
    norm_num
  have htop : get_top_letters [('a', 5), ('b', 3), ('c', 3), ('d', 1)] 2 =
      [('a', 5), ('b', 3)] := by decide
  have hs : sumValues [('a', 5), ('b', 3), ('c', 3), ('d', 1)] = 12 := by decide
  rw [top_letters_with_percentage, htop, hs]
  simp only [List.map_cons, List.map_nil]
  rw [h1, h2]

/-- C8 counterexample: in `topLetters({a:5, b:3, c:3, d:1}, n=2)` the first
entry's percentage relative to the full total 12 is 41.67, not the 50.0 the
claim states. -/
theorem top_letters_percentage_counterexample :
    top_letters_with_percentage [('a', 5), ('b', 3), ('c', 3), ('d', 1)] 2 =
      [('a', 5, 4167 / 100), ('b', 3, 25)] ∧
      ((4167 : ℚ) / 100) ≠ 50 :=
  ⟨top_letters_example_eval, by norm_num⟩

/-- C8 (amended): `topLetters({a:5, b:3, c:3, d:1}, n=2)` returns first
`(a, 5)` with percentage 41.67 (= 5/12 × 100 rounded to 2 places) computed
relative to the full total 12, then the tied entry `(b, 3)` with percentage
25.0; the percentage column always equals count / (sum of all counts of the
full distribution) × 100, rounded to 2 places, never the top-n subtotal. -/
theorem top_letters_percentage_spec :
    top_letters_with_percentage [('a', 5), ('b', 3), ('c', 3), ('d', 1)] 2 =
      [('a', 5, 4167 / 100), ('b', 3, 25)] ∧
    ∀ (freq : List (Char × Nat)) (n : Nat) (e : Char × Nat × ℚ),
      e ∈ top_letters_with_percentage freq n →
      e.2.2 = round2 ((e.2.1 : ℚ) / ((sumValues freq : Nat) : ℚ) * 100) := by
  refine ⟨top_letters_example_eval, ?_⟩
  intro freq n e he
  rw [top_letters_with_percentage] at he
  obtain ⟨x, hx, rfl⟩ := List.mem_map.mp he
  rfl

/-- C8 witness: the `(b, 3)` row of the concrete table carries percentage
3 / 12 × 100 (rounded), i.e. 25. -/
theorem top_letters_percentage_spec_witness :
    (25 : ℚ) = round2 (((3 : Nat) : ℚ) /
      ((sumValues [('a', 5), ('b', 3), ('c', 3), ('d', 1)] : Nat) : ℚ) * 100) := by
  have h := top_letters_percentage_spec
  have hmem : (('b', 3, (25 : ℚ)) : Char × Nat × ℚ) ∈
      top_letters_with_percentage [('a', 5), ('b', 3), ('c', 3), ('d', 1)] 2 := by
    rw [h.1]
    simp
  exact h.2 [('a', 5), ('b', 3), ('c', 3), ('d', 1)] 2 ('b', 3, (25 : ℚ)) hmem

/-! ## C9 -/

theorem calculate_probabilities_map_fst (f : List (Char × Nat)) (t : ℚ)
    (d : List (Char × ℚ)) (h : calculate_probabilities f t = some d) :
    d.map Prod.fst = f.map Prod.fst := by
  induction f generalizing d with
  | nil =>
    simp [calculate_probabilities] at h
    subst h
    rfl
  | cons e rest ih =>
    obtain ⟨k, v⟩ := e
    cases ht : pyDiv (v : ℚ) t with
    | none => simp [calculate_probabilities, ht] at h
    | some pr =>
      cases hrest : calculate_probabilities rest t with
      | none => simp [calculate_probabilities, ht, hrest] at h
      | some ps =>
        simp [calculate_probabilities, ht, hrest] at h
        subst h
        simp [ih ps hrest]

/-- C9: the inline TVD computations of the two dashboards (summing absolute
probability differences over the union of the FREQUENCY key sets, resp. of
the probability key sets) return exactly the value of the core
`total_variation_distance` on the same probability dicts, whenever those
dicts come from `calculate_probabilities` normalizing each frequency dict by
its own positive total. -/
theorem dashboard_tvd_matches_core
    (f g : List (Char × Nat)) (p q : List (Char × ℚ))
    (h0f : 0 < sumValues f) (h0g : 0 < sumValues g)
    (hp : calculate_probabilities f ((sumValues f : Nat) : ℚ) = some p)
    (hq : calculate_probabilities g ((sumValues g : Nat) : ℚ) = some q) :
    comparison_tvd f g p q = total_variation_distance p q ∧
    interactive_deviation p q = total_variation_distance p q := by
  have hkp : dkeys p = dkeys f := by
    rw [dkeys, dkeys, calculate_probabilities_map_fst f _ p hp]
  have hkq : dkeys q = dkeys g := by
    rw [dkeys, dkeys, calculate_probabilities_map_fst g _ q hq]
  exact ⟨by rw [comparison_tvd, total_variation_distance, hkp, hkq], rfl⟩

/-- C9 witness: for the frequency dicts `{a: 2}` and `{b: 2}` and their
normalized probabilities, the comparison dashboard's inline sum agrees with
the core function. -/
theorem dashboard_tvd_matches_core_witness :
    comparison_tvd [('a', 2)] [('b', 2)] [('a', 1)] [('b', 1)] =
      total_variation_distance [('a', 1)] [('b', 1)] :=
  (dashboard_tvd_matches_core [('a', 2)] [('b', 2)] [('a', 1)] [('b', 1)]
    (by decide) (by decide)
    (by norm_num [calculate_probabilities, pyDiv, sumValues])
    (by norm_num [calculate_probabilities, pyDiv, sumValues])).1

end WordleAnalysis
